import Mathlib

/-!
Verification of the Simulation Configuration & Stability Engine of the
DENISE-Black-Edition Python API (`pyapi_denise.py`).

The development shallowly embeds the relevant parts of the source:

* the parameter registry (`Denise._parse_inp_file` / `Denise._write_inp_file`)
  as pure functions on lists of raw lines;
* the stability analyzer (`Denise._check_stability`) and dispersion analyzer
  (`Denise._check_max_frequency`) over the reals, idealizing the Python
  floating-point arithmetic as exact real arithmetic (the coefficient tables
  are exact rationals);
* the domain-decomposition validator (`Denise._check_domain_decomp`);
* the FWI workflow scheduler (`Denise.add_fwi_stage`,
  `Denise._write_denise_workflow_header`, `Denise._write_denise_workflow`);
* the orchestration order of side effects of `Denise._engine`, `Denise.forward`
  and `Denise.fwi` as an event trace.

Fallible operations (Python exceptions: `IndexError`, `NameError`,
`AssertionError`, an empty `np.max`) are modelled with `Option`/`Bool`.
-/

namespace Denise

/-! ## Parameter registry: values

Python stores each parsed right-hand side either as the result of
`ast.literal_eval` or, when that raises, as the raw string.  The embedding
models the decimal-integer fragment of `ast.literal_eval` exactly (an optional
single sign followed by decimal digits, leading zeros only allowed for zero
itself); every other right-hand side is kept as a string by the fallback
branch.  Float and tuple literals are outside the modelled fragment. -/

/-- A raw line of the configuration file, as a character list (a `readlines`
line keeps its trailing newline). -/
abbrev Line := List Char

/-- Python `str.strip()` character class: space, tab, newline, carriage
return, vertical tab, form feed. -/
def pyIsSpace (c : Char) : Bool :=
  c = ' ' || c = '\t' || c = '\n' || c = '\r' || c = '\x0b' || c = '\x0c'

/-- Python `str.strip()`: drop leading and trailing whitespace. -/
def pyTrim (cs : Line) : Line :=
  ((cs.dropWhile pyIsSpace).reverse.dropWhile pyIsSpace).reverse

/-- Python `str.split('=')`. -/
def splitEq (cs : Line) : List Line :=
  match cs with
  | [] => [[]]
  | c :: rest =>
    let r := splitEq rest
    if c = '=' then [] :: r
    else
      match r with
      | [] => [[c]]
      | h :: t => (c :: h) :: t

/-- Python `'='.join(...)`. -/
def joinEq : List Line → Line
  | [] => []
  | [x] => x
  | x :: xs => x ++ '=' :: joinEq xs

/-- Python `str.replace(c, '')`: remove every occurrence of a character. -/
def removeChar (c : Char) (cs : Line) : Line := cs.filter (fun x => x ≠ c)

/-- Python `str(n)` for an `int`: decimal digits with a leading minus for
negative values. -/
def pyIntStr (n : ℤ) : List Char :=
  if n < 0 then '-' :: Nat.toDigits 10 n.natAbs else Nat.toDigits 10 n.natAbs

inductive PyVal where
  | int (n : ℤ)
  | str (s : Line)
  deriving DecidableEq, Repr

/-- Python `str()` applied to a stored value: integers print in decimal with a
leading minus for negatives, strings print as themselves. -/
def pyStr : PyVal → Line
  | .int n => pyIntStr n
  | .str s => s

/-- Value of a nonempty list of decimal digits. -/
def digitsVal (cs : List Char) : ℕ :=
  cs.foldl (fun a c => a * 10 + (c.toNat - '0'.toNat)) 0

/-- Whether `cs` is a valid Python decimal integer literal body: nonempty,
all digits, and no leading zero unless the value is zero. -/
def isDecDigits (cs : List Char) : Bool :=
  (!cs.isEmpty) && cs.all (fun c => c.isDigit) &&
    (cs.head? != some '0' || cs.all (fun c => c = '0'))

/-- The decimal-integer fragment of `ast.literal_eval`: an optional single
`+`/`-` sign followed by a decimal integer literal. -/
def astIntLit (s : Line) : Option ℤ :=
  match s with
  | '-' :: rest => if isDecDigits rest then some (-(digitsVal rest : ℤ)) else none
  | '+' :: rest => if isDecDigits rest then some ((digitsVal rest : ℤ)) else none
  | cs => if isDecDigits cs then some ((digitsVal cs : ℤ)) else none

/-- Recognize the data type of a right-hand side; on failure keep the string
(`except (SyntaxError, ValueError): para[arg_name] = arg_val`). -/
def coerceVal (s : Line) : PyVal :=
  match astIntLit s with
  | some n => .int n
  | none => .str s

/-! ## Parameter registry: parsing

`Denise._parse_inp_file` iterates over the raw lines (as produced by
`readlines`, i.e. each line keeps its trailing newline), keeps a 1-based line
counter over all lines, strips each line, skips lines whose first character is
`#`, and extracts a `(name, value)` pair:

* if the stripped line contains `(`, the name is the last group matched by the
  regular expression `\((.*?)\)` and the value is the text after the last `=`;
* else if it contains `=`, the name is the text before the first `=` and the
  value is the text after the last `=`;
* else parsing stops and the remaining lines stay untouched.

An empty stripped line raises `IndexError` (`line[0]`), and a line containing
`(` with no complete parenthesized group raises `IndexError`
(`re.findall(...)[-1]`); both are modelled as `none`. -/

/-- Scanner for the Python regex `\((.*?)\)`: outside a group (`cur = none`)
a `(` opens a group; inside a group every character up to the first `)` is
captured (in reverse in `cur`); a `)` closes the group.  An unclosed group at
the end of the line is not a match. -/
def parenGroupsGo : List Char → Option (List Char) → List (List Char) →
    List (List Char)
  | [], _, acc => acc.reverse
  | c :: rest, none, acc =>
    if c = '(' then parenGroupsGo rest (some []) acc
    else parenGroupsGo rest none acc
  | c :: rest, some buf, acc =>
    if c = ')' then parenGroupsGo rest none (buf.reverse :: acc)
    else parenGroupsGo rest (some (c :: buf)) acc

/-- All groups matched by the Python regex `\((.*?)\)` scanning left to right:
each `(` captures the (possibly empty) text up to the first following `)`,
and scanning resumes after that `)`. -/
def parenGroups (cs : List Char) : List (List Char) := parenGroupsGo cs none []

/-- One tracked parameter: name, 1-based line number of the line that (last)
declared it, and the stored value.  Mirrors one key shared by the Python dicts
`para` (values) and `self._map_args` (line numbers). -/
abbrev Arg := String × ℕ × PyVal

/-- Dictionary update with Python `dict` semantics: an existing key keeps its
insertion position and gets the new line/value; a fresh key is appended. -/
def updateArg (args : List Arg) (n : String) (i : ℕ) (v : PyVal) : List Arg :=
  if args.any (fun e => decide (e.1 = n)) then
    args.map (fun e => if e.1 = n then (n, i, v) else e)
  else args ++ [(n, i, v)]

/-- The line-by-line parsing loop of `Denise._parse_inp_file`.  `idx` is the
1-based number of the first line of `rest`.  Returns `none` when the Python
code would raise `IndexError` (an empty stripped line, or a line containing
`(` whose regex match list is empty). -/
def parseGo (args : List Arg) (idx : ℕ) (rest : List Line) : Option (List Arg) :=
  match rest with
  | [] => some args
  | raw :: rest =>
    let l := pyTrim raw
    if l.isEmpty then none
    else if l.headD ' ' = '#' then parseGo args (idx + 1) rest
    else if l.contains '(' then
      match (parenGroups l).getLast? with
      | none => none
      | some g =>
        let value := pyTrim ((splitEq l).getLastD [])
        parseGo (updateArg args (String.mk g) idx (coerceVal value)) (idx + 1) rest
    else if l.contains '=' then
      let name := String.mk (pyTrim ((splitEq l).headD []))
      let value := pyTrim ((splitEq l).getLastD [])
      parseGo (updateArg args name idx (coerceVal value)) (idx + 1) rest
    else some args

/-- A parsed parameter set: the raw original lines plus the tracked
name/line/value entries. -/
structure ParamState where
  lines : List Line
  args : List Arg
  deriving DecidableEq, Repr

/-- Embedding of `Denise._parse_inp_file` on the raw line list of the
configuration file. -/
def parse_inp_file (lines : List Line) : Option ParamState :=
  (parseGo [] 1 lines).map (fun a => ⟨lines, a⟩)

/-- Attribute-style mutation of one tracked parameter's value
(`setattr(self, name, v)` for a name found in `self._map_args`).  The line
mapping is unchanged. -/
def setParam (st : ParamState) (n : String) (v : PyVal) : ParamState :=
  ⟨st.lines, st.args.map (fun e => if e.1 = n then (e.1, e.2.1, v) else e)⟩

/-- The rewrite of one tracked line performed by `Denise._write_inp_file`:
everything before the last `=` is kept, and the suffix after the last `=`
becomes a single space followed by the stringified value with parentheses
stripped, then a newline. -/
def rewriteLine (line : Line) (v : PyVal) : Line :=
  joinEq ((splitEq line).dropLast) ++ '=' :: ' ' ::
    removeChar ')' (removeChar '(' (pyStr v)) ++ ['\n']

/-- Embedding of `Denise._write_inp_file`: for every tracked entry, rewrite
the recorded line in place; all other lines are emitted verbatim.  Returns
the new line list (the Python code joins it and writes or prints it). -/
def write_inp_file (st : ParamState) : List Line :=
  st.args.foldl
    (fun c e => c.set (e.2.1 - 1) (rewriteLine (c.getD (e.2.1 - 1) []) e.2.2))
    st.lines

/-! ## Coefficient tables

The five FD operator weight tables of `Denise._check_stability` (Taylor and
Holberg coefficient sets), row-indexed by operator half-length minus one.
The decimal literals of the source are read as exact rationals. -/

def hcTaylor : List (List ℚ) :=
  [[1, 0, 0, 0, 0, 0],
   [9/8, -1/24, 0, 0, 0, 0],
   [75/64, -25/384, 3/640, 0, 0, 0],
   [1225/1024, -245/3072, 49/5120, -5/7168, 0, 0],
   [19845/16384, -735/8192, 567/40960, -405/229376, 35/294912, 0],
   [160083/131072, -12705/131072, 22869/1310720, -5445/1835008,
    847/2359296, -63/2883584]]

def hcHolberg01 : List (List ℚ) :=
  [[1.001, 0, 0, 0, 0, 0],
   [1.1382, -0.046414, 0, 0, 0, 0],
   [1.1965, -0.078804, 0.0081781, 0, 0, 0],
   [1.2257, -0.099537, 0.018063, -0.0026274, 0, 0],
   [1.2415, -0.11231, 0.026191, -0.0064682, 0.001191, 0],
   [1.2508, -0.12034, 0.032131, -0.010142, 0.0029857, -0.00066667]]

def hcHolberg05 : List (List ℚ) :=
  [[1.005, 0, 0, 0, 0, 0],
   [1.1534, -0.052806, 0, 0, 0, 0],
   [1.2111, -0.088313, 0.011768, 0, 0, 0],
   [1.2367, -0.10815, 0.023113, -0.0046905, 0, 0],
   [1.2496, -0.11921, 0.03113, -0.0093272, 0.0025161, 0],
   [1.2568, -0.12573, 0.036423, -0.013132, 0.0047484, -0.0015979]]

def hcHolberg10 : List (List ℚ) :=
  [[1.01, 0, 0, 0, 0, 0],
   [1.164, -0.057991, 0, 0, 0, 0],
   [1.2192, -0.09407, 0.014608, 0, 0, 0],
   [1.2422, -0.11269, 0.02614, -0.0064054, 0, 0],
   [1.2534, -0.12257, 0.033755, -0.011081, 0.0036784, 0],
   [1.2596, -0.12825, 0.03855, -0.014763, 0.0058619, -0.0024538]]

def hcHolberg30 : List (List ℚ) :=
  [[1.03, 0, 0, 0, 0, 0],
   [1.1876, -0.072518, 0, 0, 0, 0],
   [1.2341, -0.10569, 0.022589, 0, 0, 0],
   [1.2516, -0.12085, 0.032236, -0.011459, 0, 0],
   [1.2596, -0.12829, 0.038533, -0.014681, 0.007258, 0],
   [1.264, -0.13239, 0.042217, -0.017803, 0.0081959, -0.0051848]]

/-- The table selected by `self.max_relative_error` (accuracy class 0-4);
for any other class the Python code leaves `hc` unbound and raises
`NameError`, modelled as `none`. -/
def hcTable (acc : ℕ) : Option (List (List ℚ)) :=
  match acc with
  | 0 => some hcTaylor
  | 1 => some hcHolberg01
  | 2 => some hcHolberg05
  | 3 => some hcHolberg10
  | 4 => some hcHolberg30
  | _ => none

/-- Python `np.sum(np.abs(hc[fdcoeff, :]))`. -/
def rowGamma (row : List ℚ) : ℚ := (row.map (fun a => |a|)).sum

/-- Candidate mantissa endings for the rounded time step
(`endings = [10, 20, 25, 50, 80]`). -/
def endings : List ℝ := [10, 20, 25, 50, 80]

/-- Python `10 ** (np.log10(_dt) // 1 - 1)`: the power of ten one decade below
the leading digit of `x`. -/
noncomputable def dt10 (x : ℝ) : ℝ := (10 : ℝ) ^ (⌊Real.logb 10 x⌋ - 1)

/-- Python `last2digits = _dt / _dt10`: the mantissa of `x` normalized
into `[10, 100)`. -/
noncomputable def last2digits (x : ℝ) : ℝ := x / dt10 x

/-- The rounding step of `Denise._check_stability` applied to `_dt = 0.99*dt`:
keep the candidates not exceeding the normalized mantissa and take their
maximum (`np.max` on an empty selection raises, modelled as `none`). -/
noncomputable def roundDt (x : ℝ) : Option ℝ :=
  match (endings.filter (fun e => decide (last2digits x ≥ e))).max? with
  | none => none
  | some m => some (m * dt10 x)

/-- Embedding of `Denise._check_stability`: CFL bound from the coefficient
table row `(acc, fdOrder/2 - 1)`, then the deterministic rounding step.
The row index uses truncating natural division and subtraction, which agrees
with the Python `(int)(FD_ORDER / 2) - 1` for every `fdOrder ≥ 2` (for
`fdOrder < 2` Python would index row `-1`, i.e. the last row; no claim
concerns that case). -/
noncomputable def check_stability (acc fdOrder : ℕ) (DH maxvp maxvs : ℝ) :
    Option ℝ :=
  match hcTable acc with
  | none => none
  | some hc =>
    match hc.get? (fdOrder / 2 - 1) with
    | none => none
    | some row =>
      let maxvel := if maxvp < maxvs then maxvs else maxvp
      let gamma : ℝ := ((rowGamma row : ℚ) : ℝ)
      let dt := DH / (Real.sqrt 2 * gamma * maxvel)
      roundDt (0.99 * dt)

/-- Grid points per minimum wavelength for Taylor and Holberg operators
(`gridpoints_per_wavelength` in `Denise._check_max_frequency`). -/
def gridpoints_per_wavelength : List (List ℚ) :=
  [[23.0, 8.0, 6.0, 5.0, 5.0, 4.0],
   [49.7, 8.32, 4.77, 3.69, 3.19, 2.91],
   [22.2, 5.65, 3.74, 3.11, 2.8, 2.62],
   [15.8, 4.8, 3.39, 2.9, 2.65, 2.51],
   [9.16, 3.47, 2.91, 2.61, 2.45, 2.36]]

/-- Embedding of `Denise._check_max_frequency`, starting from the nonzero
velocity minima `minvp`/`minvs` that the Python code extracts from the model
arrays.  The source computes and logs `fmax` without returning it; the
embedding returns the computed value (out-of-range table indices raise
`IndexError`, modelled as `none`). -/
noncomputable def check_max_frequency (acc fdOrder : ℕ) (DH minvp minvs : ℝ) :
    Option ℝ :=
  match gridpoints_per_wavelength.get? acc with
  | none => none
  | some r =>
    match r.get? (fdOrder / 2 - 1) with
    | none => none
    | some n =>
      let minvel := if minvp < minvs then minvp else minvs
      some (minvel / ((n : ℝ) * DH))

/-- Embedding of `Denise._check_domain_decomp`: both grid dimensions must be
divisible by the corresponding process-grid dimension; a nonzero remainder
raises `AssertionError`, modelled as `false`. -/
def check_domain_decomp (NX NY NPROCX NPROCY : ℕ) : Bool :=
  (NX % NPROCX == 0) && (NY % NPROCY == 0)

/-! ## Spec-side definitions (for the refinement claims)

These definitions follow the wording of the specification (§4.2) and are
compared against the source embedding `check_stability`. -/

/-- Spec §4.2: "choose the largest value from the fixed candidate set
`{10, 20, 25, 50, 80}` that is `<= mantissa`" (defined for mantissas of at
least 10, which is the range the rounding step produces). -/
noncomputable def specCandidate (m : ℝ) : ℝ :=
  if 80 ≤ m then 80
  else if 50 ≤ m then 50
  else if 25 ≤ m then 25
  else if 20 ≤ m then 20
  else 10

/-- Spec §4.2: "`gamma` is the sum of absolute values of the coefficient-table
row selected by `(accuracy_class, operator_half_length - 1)`". -/
def specGamma (acc L : ℕ) : ℚ := rowGamma (((hcTable acc).getD []).getD (L - 1) [])

/-- Spec §4.2: the raw CFL bound
`dt_raw = grid_spacing / (sqrt(2) * gamma * max(max_vp, max_vs))`. -/
noncomputable def rawCFL (acc L : ℕ) (DH maxvp maxvs : ℝ) : ℝ :=
  DH / (Real.sqrt 2 * ((specGamma acc L : ℚ) : ℝ) * max maxvp maxvs)

/-- Spec §4.2 rounding policy: `dt_safe = 0.99 * dt_raw`;
`scale = 10^(floor(log10 dt_safe) - 1)`; the returned `dt` is the largest
candidate `<= dt_safe/scale` times `scale`. -/
noncomputable def specRoundedDt (acc L : ℕ) (DH maxvp maxvs : ℝ) : ℝ :=
  let dtSafe := 0.99 * rawCFL acc L DH maxvp maxvs
  let scale := (10 : ℝ) ^ (⌊Real.logb 10 dtSafe⌋ - 1)
  specCandidate (dtSafe / scale) * scale

/-- Spec §4.3: the `points_per_wavelength` table entry for
`(accuracy_class, operator_half_length)`. -/
def specGpw (acc L : ℕ) : ℚ := (gridpoints_per_wavelength.getD acc []).getD (L - 1) 0

/-! ## FWI workflow scheduler

One FWI stage is a Python dict with a fixed key set built by
`Denise.add_fwi_stage`; the workflow writer stringifies each entry with
`str()`.  The embedding stores the already-stringified field values, which is
all the workflow serialization observes. -/

structure FWIStage where
  PRO : String
  TIME_FILT : String
  FC_LOW : String
  FC_HIGH : String
  ORDER : String
  TIME_WIN : String
  GAMMA : String
  TWINminus : String
  TWINplus : String
  INV_VP_ITER : String
  INV_VS_ITER : String
  INV_RHO_ITER : String
  INV_QS_ITER : String
  SPATFILTER : String
  WD_DAMP : String
  WD_DAMP1 : String
  EPRECOND : String
  LNORM : String
  STF : String
  OFFSETC_STF : String
  EPS_STF : String
  NORMALIZE : String
  OFFSET_MUTE : String
  OFFSETC : String
  SCALERHO : String
  SCALEQS : String
  ENV : String
  N_ORDER : String
  deriving DecidableEq, Repr

/-- Embedding of `Denise.add_fwi_stage`: builds the stage record from the
argument list (in the source's parameter order, including the `normalize`
argument, which is stored in the stage under the key `NORMALIZE`). -/
def add_fwi_stage (pro time_filt fc_low fc_high order time_win gamma
    twin_minus twin_plus inv_vp_iter inv_vs_iter inv_rho_iter inv_qs_iter
    spatfilter wd_damp wd_damp1 e_precond lnorm stf offsetc_stf eps_stf
    normalize offset_mute offsetc scale_rho scale_qs env n_order :
    String) : FWIStage :=
  ⟨pro, time_filt, fc_low, fc_high, order, time_win, gamma, twin_minus,
   twin_plus, inv_vp_iter, inv_vs_iter, inv_rho_iter, inv_qs_iter, spatfilter,
   wd_damp, wd_damp1, e_precond, lnorm, stf, offsetc_stf, eps_stf, normalize,
   offset_mute, offsetc, scale_rho, scale_qs, env, n_order⟩

/-- The fixed header row written by `Denise._write_denise_workflow_header`. -/
def workflow_header : String :=
  "PRO \t TIME_FILT \t FC_low \t FC_high \t ORDER \t TIME_WIN \t GAMMA \t TWIN- \t TWIN+ \t INV_VP_ITER \t INV_VS_ITER \t INV_RHO_ITER \t INV_QS_ITER \t SPATFILTER \t WD_DAMP \t WD_DAMP1 \t EPRECOND \t LNORM \t STF_INV \t OFFSETC_STF \t EPS_STF \t NORMALIZE \t OFFSET_MUTE \t OFFSETC \t SCALERHO \t SCALEQS \t ENV \t GAMMA_GRAV \t N_ORDER \n"

/-- Embedding of `Denise._write_denise_workflow`: the tab-separated row
appended for one stage.  The `NORMALIZE` and `GAMMA_GRAV` positions are the
literal `"0"` regardless of the stage's contents. -/
def write_denise_workflow (s : FWIStage) : String :=
  s.PRO ++ "\t" ++ s.TIME_FILT ++ "\t" ++ s.FC_LOW ++ "\t" ++ s.FC_HIGH ++
    "\t" ++ s.ORDER ++ "\t" ++ s.TIME_WIN ++ "\t" ++ s.GAMMA ++ "\t" ++
    s.TWINminus ++ "\t" ++ s.TWINplus ++ "\t" ++ s.INV_VP_ITER ++ "\t" ++
    s.INV_VS_ITER ++ "\t" ++ s.INV_RHO_ITER ++ "\t" ++ s.INV_QS_ITER ++
    "\t" ++ s.SPATFILTER ++ "\t" ++ s.WD_DAMP ++ "\t" ++ s.WD_DAMP1 ++
    "\t" ++ s.EPRECOND ++ "\t" ++ s.LNORM ++ "\t" ++ s.STF ++ "\t" ++
    s.OFFSETC_STF ++ "\t" ++ s.EPS_STF ++ "\t" ++ "0" ++ "\t" ++
    s.OFFSET_MUTE ++ "\t" ++ s.OFFSETC ++ "\t" ++ s.SCALERHO ++ "\t" ++
    s.SCALEQS ++ "\t" ++ s.ENV ++ "\t" ++ "0" ++ "\t" ++ s.N_ORDER ++ "\n"

/-- The column list of one serialized stage row, in emission order. -/
def rowColumns (s : FWIStage) : List String :=
  [s.PRO, s.TIME_FILT, s.FC_LOW, s.FC_HIGH, s.ORDER, s.TIME_WIN, s.GAMMA,
   s.TWINminus, s.TWINplus, s.INV_VP_ITER, s.INV_VS_ITER, s.INV_RHO_ITER,
   s.INV_QS_ITER, s.SPATFILTER, s.WD_DAMP, s.WD_DAMP1, s.EPRECOND, s.LNORM,
   s.STF, s.OFFSETC_STF, s.EPS_STF, "0", s.OFFSET_MUTE, s.OFFSETC,
   s.SCALERHO, s.SCALEQS, s.ENV, "0", s.N_ORDER]

/-- Join a column list with tab separators and terminate the row with a
newline. -/
def colsJoin : List String → String
  | [] => "\n"
  | [c] => c ++ "\n"
  | c :: cs => c ++ "\t" ++ colsJoin cs

/-- The full text of the workflow control file written by `Denise.fwi`:
the header, then one row appended per scheduled stage, in schedule order. -/
def fwi_workflow_text (stages : List FWIStage) : String :=
  stages.foldl (fun acc s => acc ++ write_denise_workflow s) workflow_header

/-! ## Run orchestration as an event trace

`Denise._engine`, `Denise.forward` and `Denise.fwi` are modelled by the
ordered list of their externally visible effects.  Print statements and the
in-memory computations (elastic ratios, `DT`/`NT`) have no external effect
and are omitted; `_check_max_frequency` only prints.  Directory creation
(`set_paths(makedirs=True)`) is an `mkdirs` event, distinct from file
writes. -/

inductive Event where
  | mkdirs
  | checkDecomp (ok : Bool)
  | writeModel
  | writeSrcRec
  | writeInp
  | writeWorkflowHeader
  | writeWorkflowRow (s : FWIStage)
  | launch
  | warnEmptyStages
  deriving DecidableEq, Repr

/-- Whether an event writes an output file. -/
def isFileWrite : Event → Bool
  | .writeModel => true
  | .writeSrcRec => true
  | .writeInp => true
  | .writeWorkflowHeader => true
  | .writeWorkflowRow _ => true
  | _ => false

/-- The configuration data that determines a run's effect trace. -/
structure RunConfig where
  NX : ℕ
  NY : ℕ
  NPROCX : ℕ
  NPROCY : ℕ
  nStreamer : ℕ
  nsrc : ℕ
  disable : Bool
  stages : List FWIStage

/-- Effect trace of `Denise._engine`: create the output folders, run the
analysis checks (the domain-decomposition assertion aborts the run on
failure), write the model binaries, the source/receiver files (one receiver
file per shot in streamer mode), the parameter file, and launch the solver
unless disabled. -/
def engineTrace (cfg : RunConfig) : List Event :=
  [Event.mkdirs] ++
    (if check_domain_decomp cfg.NX cfg.NY cfg.NPROCX cfg.NPROCY then
      [Event.checkDecomp true, Event.writeModel] ++
        (if cfg.nStreamer > 0 then
          (List.range cfg.nsrc).map (fun _ => Event.writeSrcRec)
        else [Event.writeSrcRec]) ++
      [Event.writeInp] ++
      (if cfg.disable then [] else [Event.launch])
    else [Event.checkDecomp false])

/-- Effect trace of `Denise.forward` (sets `MODE = 0`, then runs the
engine). -/
def forwardTrace (cfg : RunConfig) : List Event := engineTrace cfg

/-- Effect trace of `Denise.fwi`: with a nonempty schedule it writes the
workflow header and one row per stage in order, then runs the engine; with an
empty schedule it prints a warning directing the user to populate
`fwi_stages`, and nothing else happens. -/
def fwiTrace (cfg : RunConfig) : List Event :=
  if cfg.stages.length > 0 then
    [Event.writeWorkflowHeader] ++ cfg.stages.map Event.writeWorkflowRow ++
      engineTrace cfg
  else [Event.warnEmptyStages]

/-- The rounding step as a total function on positive arguments. -/
noncomputable def roundNice (x : ℝ) : ℝ := specCandidate (last2digits x) * dt10 x

/-- A default stage record: `Denise.add_fwi_stage` applied to the stringified
default arguments of the source. -/
def stage0 : FWIStage :=
  add_fwi_stage "0.01" "1" "0.0" "5.0" "6" "0" "20" "0.0" "0.0" "0" "0" "0"
    "0" "0" "0.5" "0.5" "3" "2" "0" "-4.0" "0.1" "0" "0" "10" "0.5" "1.0"
    "1" "0"

/-- The step performed by `write_inp_file` for one tracked entry. -/
def writeStep (c : List Line) (e : Arg) : List Line :=
  c.set (e.2.1 - 1) (rewriteLine (c.getD (e.2.1 - 1) []) e.2.2)

/-- Distinctness of two tracked entries: different names and different
declaration lines. -/
def Pdist (a b : Arg) : Prop := a.1 ≠ b.1 ∧ a.2.1 ≠ b.2.1

/-! ## Helper lemmas -/

theorem append_tab_zero_tab (x : String) : "\t" ++ ("0\t" ++ x) = "\t0\t" ++ x := by
  rw [← String.append_assoc]; rfl

theorem foldl_string_append (l : List String) : ∀ (a : String),
    l.foldl (fun r s => r ++ s) a = a ++ l.foldl (fun r s => r ++ s) "" := by
  induction l with
  | nil => intro a; simp [String.append_empty]
  | cons x t ih =>
    intro a
    simp only [List.foldl_cons]
    rw [ih (a ++ x), ih ("" ++ x), String.append_assoc, String.empty_append]

theorem foldl_workflow_join (l : List FWIStage) : ∀ (a : String),
    l.foldl (fun acc s => acc ++ write_denise_workflow s) a
      = a ++ String.join (l.map write_denise_workflow) := by
  induction l with
  | nil => intro a; simp [String.join, String.append_empty]
  | cons s t ih =>
    intro a
    simp only [List.foldl_cons, List.map_cons, String.join, ih]
    rw [foldl_string_append (List.map write_denise_workflow t)
      ("" ++ write_denise_workflow s)]
    rw [String.empty_append, String.append_assoc]

theorem sqrt2_gt : (1.414 : ℝ) < Real.sqrt 2 := by
  nlinarith [Real.sq_sqrt (show (0:ℝ) ≤ 2 by norm_num), Real.sqrt_nonneg 2]

theorem sqrt2_lt : Real.sqrt 2 < 1.4143 := by
  nlinarith [Real.sq_sqrt (show (0:ℝ) ≤ 2 by norm_num), Real.sqrt_nonneg 2]

theorem zpow_floor_logb_le {x : ℝ} (hx : 0 < x) :
    (10:ℝ) ^ ⌊Real.logb 10 x⌋ ≤ x := by
  have h1 : (10:ℝ) ^ ((⌊Real.logb 10 x⌋ : ℤ) : ℝ) ≤ (10:ℝ) ^ Real.logb 10 x :=
    Real.rpow_le_rpow_of_exponent_le (by norm_num) (Int.floor_le _)
  rw [Real.rpow_logb (by norm_num) (by norm_num) hx, Real.rpow_intCast] at h1
  exact h1

theorem lt_zpow_floor_logb {x : ℝ} (hx : 0 < x) :
    x < (10:ℝ) ^ (⌊Real.logb 10 x⌋ + 1) := by
  have h1 : (10:ℝ) ^ Real.logb 10 x <
      (10:ℝ) ^ ((⌊Real.logb 10 x⌋ + 1 : ℤ) : ℝ) := by
    apply Real.rpow_lt_rpow_of_exponent_lt (by norm_num)
    push_cast
    exact Int.lt_floor_add_one _
  rw [Real.rpow_logb (by norm_num) (by norm_num) hx, Real.rpow_intCast] at h1
  exact h1

theorem floor_logb_eq {x : ℝ} (hx : 0 < x) {n : ℤ}
    (h1 : (10:ℝ) ^ n ≤ x) (h2 : x < (10:ℝ) ^ (n + 1)) :
    ⌊Real.logb 10 x⌋ = n := by
  rw [Int.floor_eq_iff]
  constructor
  · rw [Real.le_logb_iff_rpow_le (by norm_num) hx, Real.rpow_intCast]
    exact h1
  · have h3 : Real.logb 10 x < ((n + 1 : ℤ) : ℝ) := by
      rw [Real.logb_lt_iff_lt_rpow (by norm_num) hx, Real.rpow_intCast]
      exact h2
    push_cast at h3 ⊢
    exact h3

theorem dt10_pos (x : ℝ) : 0 < dt10 x := zpow_pos (by norm_num) _

theorem zpow_pred_mul (k : ℤ) : (10:ℝ) ^ k = 10 * (10:ℝ) ^ (k - 1) := by
  calc (10:ℝ) ^ k = (10:ℝ) ^ (1 + (k - 1)) := by congr 1; omega
    _ = (10:ℝ) ^ (1:ℤ) * (10:ℝ) ^ (k - 1) := zpow_add₀ (by norm_num) 1 (k - 1)
    _ = 10 * (10:ℝ) ^ (k - 1) := by rw [zpow_one]

theorem zpow_succ_mul (k : ℤ) : (10:ℝ) ^ (k + 1) = 100 * (10:ℝ) ^ (k - 1) := by
  calc (10:ℝ) ^ (k + 1) = (10:ℝ) ^ (2 + (k - 1)) := by congr 1; omega
    _ = (10:ℝ) ^ (2:ℤ) * (10:ℝ) ^ (k - 1) := zpow_add₀ (by norm_num) 2 (k - 1)
    _ = 100 * (10:ℝ) ^ (k - 1) := by norm_num

theorem last2digits_bounds {x : ℝ} (hx : 0 < x) :
    10 ≤ last2digits x ∧ last2digits x < 100 := by
  have hlo := zpow_floor_logb_le hx
  have hhi := lt_zpow_floor_logb hx
  have hscale : (0:ℝ) < (10:ℝ) ^ (⌊Real.logb 10 x⌋ - 1) :=
    zpow_pos (by norm_num) _
  constructor
  · rw [last2digits, dt10, le_div_iff₀ hscale]
    have h2 := zpow_pred_mul ⌊Real.logb 10 x⌋
    linarith
  · rw [last2digits, dt10, div_lt_iff₀ hscale]
    have h2 := zpow_succ_mul ⌊Real.logb 10 x⌋
    linarith

theorem specCandidate_bounds (m : ℝ) :
    10 ≤ specCandidate m ∧ specCandidate m ≤ 80 := by
  unfold specCandidate
  split_ifs <;> norm_num

theorem specCandidate_mono {a b : ℝ} (hab : a ≤ b) :
    specCandidate a ≤ specCandidate b := by
  unfold specCandidate
  split_ifs <;> linarith

theorem roundDt_eq {x : ℝ} (hx : 0 < x) : roundDt x = some (roundNice x) := by
  obtain ⟨h10, h100⟩ := last2digits_bounds hx
  have m1 : max (10:ℝ) 20 = 20 := max_eq_right (by norm_num)
  have m2 : max (20:ℝ) 25 = 25 := max_eq_right (by norm_num)
  have m3 : max (25:ℝ) 50 = 50 := max_eq_right (by norm_num)
  have m4 : max (50:ℝ) 80 = 80 := max_eq_right (by norm_num)
  rcases le_or_lt 80 (last2digits x) with h80 | h80
  · have h20 : (20:ℝ) ≤ last2digits x := by linarith
    have h25 : (25:ℝ) ≤ last2digits x := by linarith
    have h50 : (50:ℝ) ≤ last2digits x := by linarith
    have hfil : endings.filter (fun e => decide (last2digits x ≥ e)) =
        [10, 20, 25, 50, 80] := by
      simp [endings, List.filter_cons, ge_iff_le, h10, h20, h25, h50, h80]
    rw [roundDt, hfil]
    show some ((max (max (max (max (10:ℝ) 20) 25) 50) 80) * dt10 x) = _
    rw [m1, m2, m3, m4, roundNice, specCandidate, if_pos h80]
  · rcases le_or_lt 50 (last2digits x) with h50 | h50
    · have h20 : (20:ℝ) ≤ last2digits x := by linarith
      have h25 : (25:ℝ) ≤ last2digits x := by linarith
      have hfil : endings.filter (fun e => decide (last2digits x ≥ e)) =
          [10, 20, 25, 50] := by
        simp [endings, List.filter_cons, ge_iff_le, h10, h20, h25, h50,
          not_le.mpr h80]
      rw [roundDt, hfil]
      show some ((max (max (max (10:ℝ) 20) 25) 50) * dt10 x) = _
      rw [m1, m2, m3, roundNice, specCandidate, if_neg (not_le.mpr h80),
        if_pos h50]
    · rcases le_or_lt 25 (last2digits x) with h25 | h25
      · have h20 : (20:ℝ) ≤ last2digits x := by linarith
        have hfil : endings.filter (fun e => decide (last2digits x ≥ e)) =
            [10, 20, 25] := by
          simp [endings, List.filter_cons, ge_iff_le, h10, h20, h25,
            not_le.mpr h80, not_le.mpr h50]
        rw [roundDt, hfil]
        show some ((max (max (10:ℝ) 20) 25) * dt10 x) = _
        rw [m1, m2, roundNice, specCandidate, if_neg (not_le.mpr h80),
          if_neg (not_le.mpr h50), if_pos h25]
      · rcases le_or_lt 20 (last2digits x) with h20 | h20
        · have hfil : endings.filter (fun e => decide (last2digits x ≥ e)) =
              [10, 20] := by
            simp [endings, List.filter_cons, ge_iff_le, h10, h20,
              not_le.mpr h80, not_le.mpr h50, not_le.mpr h25]
          rw [roundDt, hfil]
          show some ((max (10:ℝ) 20) * dt10 x) = _
          rw [m1, roundNice, specCandidate, if_neg (not_le.mpr h80),
            if_neg (not_le.mpr h50), if_neg (not_le.mpr h25), if_pos h20]
        · have hfil : endings.filter (fun e => decide (last2digits x ≥ e)) =
              [10] := by
            simp [endings, List.filter_cons, ge_iff_le, h10,
              not_le.mpr h80, not_le.mpr h50, not_le.mpr h25, not_le.mpr h20]
          rw [roundDt, hfil]
          show some ((10:ℝ) * dt10 x) = _
          rw [roundNice, specCandidate, if_neg (not_le.mpr h80),
            if_neg (not_le.mpr h50), if_neg (not_le.mpr h25),
            if_neg (not_le.mpr h20)]

theorem table_row (acc L : ℕ) (hacc : acc ≤ 4) (hL1 : 1 ≤ L) (hL6 : L ≤ 6) :
    ∃ T row, hcTable acc = some T ∧ T.get? (L - 1) = some row ∧
      specGamma acc L = rowGamma row ∧ 0 < rowGamma row := by
  interval_cases acc <;> interval_cases L <;>
    refine ⟨_, _, rfl, rfl, rfl, ?_⟩ <;>
    norm_num [rowGamma, hcTaylor, hcHolberg01, hcHolberg05, hcHolberg10,
      hcHolberg30, abs_of_nonneg]

theorem if_lt_else_eq_max (a b : ℝ) : (if a < b then b else a) = max a b := by
  rcases lt_or_ge a b with h | h
  · rw [if_pos h, max_eq_right h.le]
  · rw [if_neg (not_lt.mpr h), max_eq_left h]

theorem check_stability_eq (acc L : ℕ) (DH vp vs : ℝ) (hacc : acc ≤ 4)
    (hL1 : 1 ≤ L) (hL6 : L ≤ 6) (hDH : 0 < DH) (hvp : 0 < vp)
    (hvs : 0 < vs) :
    check_stability acc (2 * L) DH vp vs =
      some (specRoundedDt acc L DH vp vs) := by
  obtain ⟨T, row, hT, hrow, hsg, hpos⟩ := table_row acc L hacc hL1 hL6
  have hfd : 2 * L / 2 - 1 = L - 1 := by omega
  simp only [check_stability, hT, hfd, hrow]
  rw [if_lt_else_eq_max]
  have hmax : 0 < max vp vs := lt_max_iff.mpr (Or.inl hvp)
  have hgam : (0:ℝ) < ((rowGamma row : ℚ) : ℝ) := by exact_mod_cast hpos
  have hs : (0:ℝ) < Real.sqrt 2 := Real.sqrt_pos.mpr (by norm_num)
  have h99 : 0 < 0.99 *
      (DH / (Real.sqrt 2 * ((rowGamma row : ℚ) : ℝ) * max vp vs)) := by
    positivity
  rw [roundDt_eq h99]
  congr 1
  rw [specRoundedDt, rawCFL, hsg]
  rfl

theorem roundNice_mono {x y : ℝ} (hx : 0 < x) (hxy : x ≤ y) :
    roundNice x ≤ roundNice y := by
  have hk : ⌊Real.logb 10 x⌋ ≤ ⌊Real.logb 10 y⌋ :=
    Int.floor_le_floor (Real.logb_le_logb_of_le (by norm_num) hx hxy)
  rcases eq_or_lt_of_le hk with he | hlt
  · have hd : dt10 x = dt10 y := by rw [dt10, dt10, he]
    have hm : last2digits x ≤ last2digits y := by
      rw [last2digits, last2digits, ← hd]
      exact (div_le_div_iff_of_pos_right (dt10_pos x)).mpr hxy
    rw [roundNice, roundNice, ← hd]
    exact mul_le_mul_of_nonneg_right (specCandidate_mono hm) (dt10_pos x).le
  · have h1 : roundNice x ≤ 80 * (10:ℝ) ^ (⌊Real.logb 10 x⌋ - 1) := by
      rw [roundNice]
      exact mul_le_mul_of_nonneg_right (specCandidate_bounds _).2
        (dt10_pos x).le
    have h2 : (10:ℝ) ^ ⌊Real.logb 10 y⌋ ≤ roundNice y := by
      rw [roundNice]
      calc (10:ℝ) ^ ⌊Real.logb 10 y⌋
          = 10 * (10:ℝ) ^ (⌊Real.logb 10 y⌋ - 1) := zpow_pred_mul _
        _ ≤ specCandidate (last2digits y) * (10:ℝ) ^ (⌊Real.logb 10 y⌋ - 1) :=
            mul_le_mul_of_nonneg_right (specCandidate_bounds _).1
              (zpow_pos (by norm_num) _).le
    have h3 : (80:ℝ) * (10:ℝ) ^ (⌊Real.logb 10 x⌋ - 1) <
        (10:ℝ) ^ ⌊Real.logb 10 y⌋ := by
      have hp : (0:ℝ) < (10:ℝ) ^ (⌊Real.logb 10 x⌋ - 1) :=
        zpow_pos (by norm_num) _
      have h4 : (100:ℝ) * (10:ℝ) ^ (⌊Real.logb 10 x⌋ - 1) =
          (10:ℝ) ^ (⌊Real.logb 10 x⌋ + 1) := (zpow_succ_mul _).symm
      have h5 : (10:ℝ) ^ (⌊Real.logb 10 x⌋ + 1) ≤ (10:ℝ) ^ ⌊Real.logb 10 y⌋ :=
        zpow_le_zpow_right₀ (by norm_num) (by omega)
      nlinarith
    linarith

theorem specGamma_taylor3 : specGamma 0 3 = 149/120 := by
  norm_num [specGamma, hcTable, hcTaylor, rowGamma, abs_of_nonneg]

theorem check_stability_eval_1_400 (v vs : ℝ) (hv1 : 3500 ≤ v)
    (hv2 : v ≤ 3510) (hvs : 0 < vs) (hvsv : vs ≤ v) :
    check_stability 0 6 20 v vs = some (1/400) := by
  have hv0 : (0:ℝ) < v := by linarith
  have heq := check_stability_eq 0 3 20 v vs (by norm_num) (by norm_num)
    (by norm_num) (by norm_num) hv0 hvs
  rw [(by norm_num : 2 * 3 = 6)] at heq
  rw [heq]
  congr 1
  have hmax : max v vs = v := max_eq_left hvsv
  have hs1 := sqrt2_gt
  have hs2 := sqrt2_lt
  have hXval : 0.99 * rawCFL 0 3 20 v vs =
      19.8 / (Real.sqrt 2 * (149/120) * v) := by
    rw [rawCFL, specGamma_taylor3, hmax]
    push_cast
    field_simp
    ring
  have hden_pos : 0 < Real.sqrt 2 * (149/120) * v := by positivity
  have hden_lo : 6144 < Real.sqrt 2 * (149/120) * v := by nlinarith
  have hden_hi : Real.sqrt 2 * (149/120) * v < 6165 := by nlinarith
  set X := 0.99 * rawCFL 0 3 20 v vs with hXdef
  have hXpos : 0 < X := by rw [hXval]; positivity
  have hfl : ⌊Real.logb 10 X⌋ = -3 := by
    apply floor_logb_eq hXpos
    · have h3 : ((10:ℝ) ^ (-3:ℤ)) = 1/1000 := by norm_num
      rw [h3, hXval, le_div_iff₀ hden_pos]
      nlinarith
    · have h2 : ((10:ℝ) ^ ((-3:ℤ) + 1)) = 1/100 := by norm_num
      rw [h2, hXval, div_lt_iff₀ hden_pos]
      nlinarith
  have hscale : dt10 X = 1/10000 := by
    rw [dt10, hfl]
    norm_num
  have h25 : 25 ≤ last2digits X := by
    rw [last2digits, hscale, le_div_iff₀ (by norm_num : (0:ℝ) < 1/10000),
      hXval, le_div_iff₀ hden_pos]
    nlinarith
  have h50 : last2digits X < 50 := by
    rw [last2digits, hscale, div_lt_iff₀ (by norm_num : (0:ℝ) < 1/10000),
      hXval, div_lt_iff₀ hden_pos]
    nlinarith
  show roundNice X = 1/400
  rw [roundNice, hscale, specCandidate, if_neg (by linarith : ¬(80:ℝ) ≤ last2digits X),
    if_neg (by linarith : ¬(50:ℝ) ≤ last2digits X), if_pos h25]
  norm_num

theorem gpw_row (acc L : ℕ) (hacc : acc ≤ 4) (hL1 : 1 ≤ L) (hL6 : L ≤ 6) :
    ∃ r n, gridpoints_per_wavelength.get? acc = some r ∧
      r.get? (L - 1) = some n ∧ specGpw acc L = n := by
  interval_cases acc <;> interval_cases L <;> exact ⟨_, _, rfl, rfl, rfl⟩

theorem list_set_getD {α : Type} (l : List α) : ∀ (n : ℕ) (d : α),
    l.set n (l.getD n d) = l := by
  induction l with
  | nil => intro n d; rfl
  | cons x t ih =>
    intro n d
    cases n with
    | zero => rfl
    | succ m =>
      rw [List.getD_cons_succ]
      show x :: t.set m (t.getD m d) = x :: t
      rw [ih m d]

theorem getD_set_self {α : Type} (l : List α) : ∀ (n : ℕ) (a d : α),
    n < l.length → (l.set n a).getD n d = a := by
  induction l with
  | nil => intro n a d h; simp at h
  | cons x t ih =>
    intro n a d h
    cases n with
    | zero => rfl
    | succ m =>
      simp only [List.length_cons, Nat.succ_lt_succ_iff] at h
      show (x :: t.set m a).getD (m + 1) d = a
      rw [List.getD_cons_succ]
      exact ih m a d h

theorem getD_set_ne {α : Type} (l : List α) : ∀ (m n : ℕ) (a d : α),
    m ≠ n → (l.set m a).getD n d = l.getD n d := by
  induction l with
  | nil => intro m n a d h; rfl
  | cons x t ih =>
    intro m n a d h
    cases m with
    | zero =>
      cases n with
      | zero => exact absurd rfl h
      | succ k => rfl
    | succ m' =>
      cases n with
      | zero => rfl
      | succ k =>
        show (x :: t.set m' a).getD (k + 1) d = (x :: t).getD (k + 1) d
        rw [List.getD_cons_succ, List.getD_cons_succ]
        exact ih m' k a d (by omega)

theorem write_inp_file_eq_foldl (st : ParamState) :
    write_inp_file st = st.args.foldl writeStep st.lines := rfl

theorem foldl_writeStep_noop : ∀ (args : List Arg) (c : List Line),
    (∀ e ∈ args,
      c.getD (e.2.1 - 1) [] = rewriteLine (c.getD (e.2.1 - 1) []) e.2.2) →
    args.foldl writeStep c = c := by
  intro args
  induction args with
  | nil => intro c _; rfl
  | cons e t ih =>
    intro c hc
    have h0 : writeStep c e = c := by
      have := (hc e (by simp)).symm
      rw [writeStep, this, list_set_getD]
    rw [List.foldl_cons, h0]
    exact ih c (fun e' he' => hc e' (by simp [he']))

theorem updateArg_pairwise (args : List Arg) (n : String) (i : ℕ) (v : PyVal)
    (hp : args.Pairwise Pdist) (hb : ∀ e ∈ args, e.2.1 < i) :
    (updateArg args n i v).Pairwise Pdist := by
  rw [updateArg]
  split_ifs with hany
  · refine (List.pairwise_map.mpr (hp.imp_of_mem ?_))
    intro a b ha hb' hab
    by_cases han : a.1 = n <;> by_cases hbn : b.1 = n
    · exact absurd (han.trans hbn.symm) hab.1
    · rw [if_pos han, if_neg hbn]
      refine ⟨?_, ?_⟩
      · show n ≠ b.1
        rw [← han]; exact hab.1
      · show i ≠ b.2.1
        have := hb b hb'
        omega
    · rw [if_neg han, if_pos hbn]
      refine ⟨?_, ?_⟩
      · show a.1 ≠ n
        rw [← hbn]; exact hab.1
      · show a.2.1 ≠ i
        have := hb a ha
        omega
    · rw [if_neg han, if_neg hbn]
      exact hab
  · rw [List.pairwise_append]
    refine ⟨hp, by simp, ?_⟩
    intro a ha b hbmem
    simp only [List.mem_singleton] at hbmem
    subst hbmem
    constructor
    · intro hkey
      exact hany (List.any_eq_true.mpr ⟨a, ha, by simp [hkey]⟩)
    · show a.2.1 ≠ i
      have := hb a ha
      omega

theorem updateArg_bounds (args : List Arg) (n : String) (i : ℕ) (v : PyVal)
    (hb : ∀ e ∈ args, 1 ≤ e.2.1 ∧ e.2.1 < i) (hi : 1 ≤ i) :
    ∀ e ∈ updateArg args n i v, 1 ≤ e.2.1 ∧ e.2.1 < i + 1 := by
  intro e he
  rw [updateArg] at he
  split_ifs at he with hany
  · obtain ⟨e0, he0, heq⟩ := List.mem_map.mp he
    by_cases h0 : e0.1 = n
    · rw [if_pos h0] at heq
      subst heq
      exact ⟨hi, Nat.lt_succ_self i⟩
    · rw [if_neg h0] at heq
      subst heq
      have := hb e0 he0
      omega
  · rcases List.mem_append.mp he with h | h
    · have := hb e h; omega
    · simp only [List.mem_singleton] at h
      subst h
      exact ⟨hi, Nat.lt_succ_self i⟩

theorem parseGo_invariant : ∀ (rest : List Line) (args : List Arg)
    (idx : ℕ) (res : List Arg),
    parseGo args idx rest = some res → 1 ≤ idx →
    (∀ e ∈ args, 1 ≤ e.2.1 ∧ e.2.1 < idx) → args.Pairwise Pdist →
    (∀ e ∈ res, 1 ≤ e.2.1 ∧ e.2.1 < idx + rest.length) ∧
      res.Pairwise Pdist := by
  intro rest
  induction rest with
  | nil =>
    intro args idx res h h1 hb hp
    rw [parseGo] at h
    simp only [Option.some.injEq] at h
    subst h
    exact ⟨fun e he => by have := hb e he; omega, hp⟩
  | cons raw rest ih =>
    intro args idx res h h1 hb hp
    simp only [parseGo] at h
    by_cases he1 : (pyTrim raw).isEmpty = true
    · rw [if_pos he1] at h
      exact Option.noConfusion h
    · rw [if_neg he1] at h
      by_cases he2 : (pyTrim raw).headD ' ' = '#'
      · rw [if_pos he2] at h
        have := ih args (idx + 1) res h (by omega)
          (fun e he => by have := hb e he; omega) hp
        refine ⟨fun e he => ?_, this.2⟩
        have := this.1 e he
        simp only [List.length_cons]
        omega
      · rw [if_neg he2] at h
        by_cases he3 : (pyTrim raw).contains '(' = true
        · rw [if_pos he3] at h
          rcases hg : (parenGroups (pyTrim raw)).getLast? with _ | g <;>
            rw [hg] at h
          · exact Option.noConfusion h
          · have hbnd := updateArg_bounds args (String.mk g) idx
              (coerceVal (pyTrim ((splitEq (pyTrim raw)).getLastD []))) hb h1
            have hpar := updateArg_pairwise args (String.mk g) idx
              (coerceVal (pyTrim ((splitEq (pyTrim raw)).getLastD [])))
              hp (fun e he => (hb e he).2)
            have := ih _ (idx + 1) res h (by omega) hbnd hpar
            refine ⟨fun e he => ?_, this.2⟩
            have := this.1 e he
            simp only [List.length_cons]
            omega
        · rw [if_neg he3] at h
          by_cases he4 : (pyTrim raw).contains '=' = true
          · rw [if_pos he4] at h
            have hbnd := updateArg_bounds args
              (String.mk (pyTrim ((splitEq (pyTrim raw)).headD []))) idx
              (coerceVal (pyTrim ((splitEq (pyTrim raw)).getLastD []))) hb h1
            have hpar := updateArg_pairwise args
              (String.mk (pyTrim ((splitEq (pyTrim raw)).headD []))) idx
              (coerceVal (pyTrim ((splitEq (pyTrim raw)).getLastD [])))
              hp (fun e he => (hb e he).2)
            have := ih _ (idx + 1) res h (by omega) hbnd hpar
            refine ⟨fun e he => ?_, this.2⟩
            have := this.1 e he
            simp only [List.length_cons]
            omega
          · rw [if_neg he4] at h
            simp only [Option.some.injEq] at h
            subst h
            refine ⟨fun e he => ?_, hp⟩
            have := hb e he
            simp only [List.length_cons]
            omega

theorem parse_inp_file_invariant (L : List Line) (st : ParamState)
    (hp : parse_inp_file L = some st) :
    st.lines = L ∧
    (∀ e ∈ st.args, 1 ≤ e.2.1 ∧ e.2.1 - 1 < L.length) ∧
    st.args.Pairwise Pdist := by
  rw [parse_inp_file] at hp
  rcases hgo : parseGo [] 1 L with _ | a <;> rw [hgo] at hp
  · exact absurd hp (by simp)
  · have hp' : (⟨L, a⟩ : ParamState) = st := by simpa using hp
    subst hp'
    have := parseGo_invariant L [] 1 a hgo (by omega) (by simp) (by simp)
    exact ⟨rfl, fun e he => by have := this.1 e he; omega, this.2⟩

theorem pairwise_key_unique {A : List Arg} (hp : A.Pairwise Pdist) :
    ∀ a ∈ A, ∀ b ∈ A, a.1 = b.1 → a = b := by
  induction A with
  | nil => intro a ha; simp at ha
  | cons h t ih =>
    intro a ha b hb hab
    have hhead := List.pairwise_cons.mp hp
    rcases List.mem_cons.mp ha with ha' | ha' <;>
      rcases List.mem_cons.mp hb with hb' | hb'
    · rw [ha', hb']
    · subst ha'; exact absurd hab (hhead.1 b hb').1
    · subst hb'; exact absurd hab.symm (hhead.1 a ha').1
    · exact ih hhead.2 a ha' b hb' hab

theorem pairwise_line_unique {A : List Arg} (hp : A.Pairwise Pdist) :
    ∀ a ∈ A, ∀ b ∈ A, a.2.1 = b.2.1 → a = b := by
  induction A with
  | nil => intro a ha; simp at ha
  | cons h t ih =>
    intro a ha b hb hab
    have hhead := List.pairwise_cons.mp hp
    rcases List.mem_cons.mp ha with ha' | ha' <;>
      rcases List.mem_cons.mp hb with hb' | hb'
    · rw [ha', hb']
    · subst ha'; exact absurd hab (hhead.1 b hb').2
    · subst hb'; exact absurd hab.symm (hhead.1 a ha').2
    · exact ih hhead.2 a ha' b hb' hab

theorem foldl_writeStep_getD : ∀ (args : List Arg) (c : List Line),
    args.Pairwise Pdist →
    (∀ e ∈ args, 1 ≤ e.2.1 ∧ e.2.1 - 1 < c.length) →
    ∀ j, (args.foldl writeStep c).getD j [] =
      match args.find? (fun e => e.2.1 - 1 == j) with
      | some e => rewriteLine (c.getD j []) e.2.2
      | none => c.getD j [] := by
  intro args
  induction args with
  | nil => intro c _ _ j; rfl
  | cons e t ih =>
    intro c hp hb j
    have hhead := List.pairwise_cons.mp hp
    have hce : 1 ≤ e.2.1 ∧ e.2.1 - 1 < c.length := hb e (by simp)
    have hlen : (writeStep c e).length = c.length := by
      simp [writeStep]
    have ihc := ih (writeStep c e) hhead.2
      (fun e' he' => by have h2 := hb e' (by simp [he']); rw [hlen]; omega)
    by_cases hij : e.2.1 - 1 = j
    · rw [List.foldl_cons,
        ihc j, List.find?_cons_of_pos _ (by simp [hij])]
      have hnone : t.find? (fun e' => e'.2.1 - 1 == j) = none := by
        rw [List.find?_eq_none]
        intro e' he'
        have hd2 : e.2.1 ≠ e'.2.1 := (hhead.1 e' he').2
        have h1' : 1 ≤ e'.2.1 := (hb e' (by simp [he'])).1
        have h0 : 1 ≤ e.2.1 := hce.1
        simp only [beq_iff_eq]
        omega
      rw [hnone]
      simp only []
      rw [← hij, writeStep, getD_set_self c (e.2.1 - 1) _ [] hce.2]
    · rw [List.foldl_cons, ihc j,
        List.find?_cons_of_neg _ (by simp [hij])]
      have hcc : (writeStep c e).getD j [] = c.getD j [] := by
        rw [writeStep, getD_set_ne c (e.2.1 - 1) j _ [] hij]
      rcases hf : t.find? (fun e' => e'.2.1 - 1 == j) with _ | e' <;>
        simp only [hf, hcc]

theorem foldl_writeStep_length : ∀ (args : List Arg) (c : List Line),
    (args.foldl writeStep c).length = c.length := by
  intro args
  induction args with
  | nil => intro c; rfl
  | cons e t ih =>
    intro c
    rw [List.foldl_cons, ih]
    simp [writeStep]

/-! ## Claims -/

/-- Claim C1 counterexample: the input `"A =5\n"` is accepted by the parser,
but serializing the resulting parameter set without any mutation yields
`"A = 5\n"`, which is not character-for-character identical to the input
(the write-back normalizes the suffix after the last `=` to a single space
followed by the stringified value). -/
theorem roundtrip_not_identity_cex :
    (parse_inp_file ["A =5\n".data]).isSome = true ∧
    (parse_inp_file ["A =5\n".data]).map write_inp_file ≠
      some ["A =5\n".data] := by
  constructor
  · decide
  · decide

/-- Claim C1 (amended): serializing after parsing reproduces the input
character-for-character provided every tracked line is already in the
canonical form produced by the write-back rule, i.e. its suffix after the
last `=` is exactly one space followed by the stringified parsed value. -/
theorem roundtrip_identity_of_canonical (L : List Line) (st : ParamState)
    (hp : parse_inp_file L = some st)
    (hcanon : ∀ e ∈ st.args,
      L.getD (e.2.1 - 1) [] = rewriteLine (L.getD (e.2.1 - 1) []) e.2.2) :
    write_inp_file st = L := by
  have hlines : st.lines = L := (parse_inp_file_invariant L st hp).1
  rw [write_inp_file_eq_foldl, hlines]
  exact foldl_writeStep_noop st.args L hcanon

/-- Witness for C1 (amended) on a concrete canonical configuration. -/
theorem roundtrip_identity_of_canonical_witness :
    parse_inp_file ["# c\n".data, "A = 5\n".data] =
      some (ParamState.mk ["# c\n".data, "A = 5\n".data]
        [("A", 2, PyVal.int 5)]) ∧
    (∀ e ∈ (ParamState.mk ["# c\n".data, "A = 5\n".data]
        [("A", 2, PyVal.int 5)]).args,
      ["# c\n".data, "A = 5\n".data].getD (e.2.1 - 1) [] =
        rewriteLine (["# c\n".data, "A = 5\n".data].getD (e.2.1 - 1) [])
          e.2.2) ∧
    write_inp_file
        (ParamState.mk ["# c\n".data, "A = 5\n".data]
          [("A", 2, PyVal.int 5)]) =
      ["# c\n".data, "A = 5\n".data] :=
  ⟨by decide, by decide,
    roundtrip_identity_of_canonical ["# c\n".data, "A = 5\n".data]
      (ParamState.mk ["# c\n".data, "A = 5\n".data] [("A", 2, PyVal.int 5)])
      (by decide) (by decide)⟩

/-- Claim C5 counterexample: parsing `["A =5\n", "B = 1\n"]`, changing only
`B` and re-serializing also changes line 1 (the line of `A`, whose suffix is
normalized from `"=5"` to `"= 5"`), so the output differs from the original
outside the mutated parameter's line. -/
theorem single_mutation_not_frame_cex :
    parse_inp_file ["A =5\n".data, "B = 1\n".data] =
      some (ParamState.mk ["A =5\n".data, "B = 1\n".data]
        [("A", 1, PyVal.int 5), ("B", 2, PyVal.int 1)]) ∧
    (write_inp_file (setParam
        (ParamState.mk ["A =5\n".data, "B = 1\n".data]
          [("A", 1, PyVal.int 5), ("B", 2, PyVal.int 1)])
        "B" (PyVal.int 2))).getD 0 [] ≠
      ["A =5\n".data, "B = 1\n".data].getD 0 [] := by
  constructor
  · decide
  · decide

/-- Claim C5 (amended): if every tracked line is already in the canonical
write-back form, then changing one tracked parameter and re-serializing
changes exactly that parameter's line and no other, and on that line only
the suffix after the final `=` (the new line is the old prefix up to the
final `=` followed by one space and the new stringified value). -/
theorem single_mutation_frame (L : List Line) (st : ParamState)
    (p : String) (v : PyVal) (ip : ℕ) (w : PyVal)
    (hp : parse_inp_file L = some st)
    (hmem : (p, ip, w) ∈ st.args)
    (hcanon : ∀ e ∈ st.args,
      L.getD (e.2.1 - 1) [] = rewriteLine (L.getD (e.2.1 - 1) []) e.2.2) :
    (write_inp_file (setParam st p v)).length = L.length ∧
    (∀ j, j ≠ ip - 1 →
      (write_inp_file (setParam st p v)).getD j [] = L.getD j []) ∧
    (write_inp_file (setParam st p v)).getD (ip - 1) [] =
      rewriteLine (L.getD (ip - 1) []) v := by
  obtain ⟨hlines, hbnd, hpair⟩ := parse_inp_file_invariant L st hp
  have hfst : ∀ e : Arg,
      ((if e.1 = p then (e.1, e.2.1, v) else e) : Arg).1 = e.1 := by
    intro e; by_cases h : e.1 = p <;> simp [h]
  have hsnd : ∀ e : Arg,
      ((if e.1 = p then (e.1, e.2.1, v) else e) : Arg).2.1 = e.2.1 := by
    intro e; by_cases h : e.1 = p <;> simp [h]
  have hw : write_inp_file (setParam st p v) =
      ((setParam st p v).args).foldl writeStep L := by
    rw [write_inp_file_eq_foldl]
    have hl2 : (setParam st p v).lines = L := by simp [setParam, hlines]
    rw [hl2]
  have hpairA : ((setParam st p v).args).Pairwise Pdist := by
    rw [setParam]
    exact List.pairwise_map.mpr (hpair.imp (fun {a b} hab =>
      ⟨by rw [hfst a, hfst b]; exact hab.1,
       by rw [hsnd a, hsnd b]; exact hab.2⟩))
  have hbndA : ∀ e ∈ (setParam st p v).args,
      1 ≤ e.2.1 ∧ e.2.1 - 1 < L.length := by
    intro e he
    rw [setParam] at he
    obtain ⟨e0, he0, he0eq⟩ := List.mem_map.mp he
    have := hbnd e0 he0
    rw [← he0eq, hsnd e0]
    exact this
  have hip : 1 ≤ ip := (hbnd (p, ip, w) hmem).1
  refine ⟨?_, ?_, ?_⟩
  · rw [hw, foldl_writeStep_length]
  · intro j hj
    rw [hw, foldl_writeStep_getD _ L hpairA hbndA j]
    rcases hf : ((setParam st p v).args).find? (fun e => e.2.1 - 1 == j)
      with _ | e'
    · rw [hf]
    · rw [hf]
      have he'mem := List.mem_of_find?_eq_some hf
      have he'pred := List.find?_some hf
      simp only [beq_iff_eq] at he'pred
      rw [setParam] at he'mem
      obtain ⟨e0, he0, he0eq⟩ := List.mem_map.mp he'mem
      by_cases hkey : e0.1 = p
      · have he0w : e0 = (p, ip, w) :=
          pairwise_key_unique hpair e0 he0 (p, ip, w) hmem (by rw [hkey])
        have hidx : e'.2.1 = ip := by
          rw [← he0eq, hsnd e0, he0w]
        exact absurd (by omega : j = ip - 1) hj
      · have he'e0 : e' = e0 := by
          rw [← he0eq, if_neg hkey]
        have hj0 : j = e0.2.1 - 1 := by rw [← he'pred, he'e0]
        show rewriteLine (L.getD j []) e'.2.2 = L.getD j []
        rw [he'e0, hj0]
        exact (hcanon e0 he0).symm
  · rw [hw, foldl_writeStep_getD _ L hpairA hbndA (ip - 1)]
    have hmem' : ((p, ip, v) : Arg) ∈ (setParam st p v).args := by
      rw [setParam]
      exact List.mem_map.mpr ⟨(p, ip, w), hmem, by simp⟩
    have hsome : (((setParam st p v).args).find?
        (fun e => e.2.1 - 1 == ip - 1)).isSome :=
      List.find?_isSome.mpr ⟨(p, ip, v), hmem', by simp⟩
    rcases hf : ((setParam st p v).args).find? (fun e => e.2.1 - 1 == ip - 1)
      with _ | e'
    · rw [hf] at hsome; simp at hsome
    · rw [hf]
      have he'mem := List.mem_of_find?_eq_some hf
      have he'pred := List.find?_some hf
      simp only [beq_iff_eq] at he'pred
      have h1e' : 1 ≤ e'.2.1 := (hbndA e' he'mem).1
      rw [setParam] at he'mem
      obtain ⟨e0, he0, he0eq⟩ := List.mem_map.mp he'mem
      have hidx0 : e0.2.1 = ip := by
        have := hsnd e0
        rw [he0eq] at this
        omega
      have he0w : e0 = (p, ip, w) :=
        pairwise_line_unique hpair e0 he0 (p, ip, w) hmem (by rw [hidx0])
      have he'val : e' = (p, ip, v) := by
        rw [← he0eq, he0w]
        simp
      show rewriteLine (L.getD (ip - 1) []) e'.2.2 =
        rewriteLine (L.getD (ip - 1) []) v
      rw [he'val]

/-- Witness for C5 (amended) on a concrete canonical two-line configuration:
mutating `B` rewrites only line 2, and only after its final `=`. -/
theorem single_mutation_frame_witness :
    parse_inp_file ["A = 5\n".data, "B = 1\n".data] =
      some (ParamState.mk ["A = 5\n".data, "B = 1\n".data]
        [("A", 1, PyVal.int 5), ("B", 2, PyVal.int 1)]) ∧
    (("B", 2, PyVal.int 1) : Arg) ∈
      (ParamState.mk ["A = 5\n".data, "B = 1\n".data]
        [("A", 1, PyVal.int 5), ("B", 2, PyVal.int 1)]).args ∧
    (∀ e ∈ (ParamState.mk ["A = 5\n".data, "B = 1\n".data]
        [("A", 1, PyVal.int 5), ("B", 2, PyVal.int 1)]).args,
      ["A = 5\n".data, "B = 1\n".data].getD (e.2.1 - 1) [] =
        rewriteLine (["A = 5\n".data, "B = 1\n".data].getD (e.2.1 - 1) [])
          e.2.2) ∧
    ((write_inp_file (setParam
        (ParamState.mk ["A = 5\n".data, "B = 1\n".data]
          [("A", 1, PyVal.int 5), ("B", 2, PyVal.int 1)])
        "B" (PyVal.int 2))).length =
      ["A = 5\n".data, "B = 1\n".data].length ∧
    (∀ j, j ≠ 2 - 1 →
      (write_inp_file (setParam
        (ParamState.mk ["A = 5\n".data, "B = 1\n".data]
          [("A", 1, PyVal.int 5), ("B", 2, PyVal.int 1)])
        "B" (PyVal.int 2))).getD j [] =
      ["A = 5\n".data, "B = 1\n".data].getD j []) ∧
    (write_inp_file (setParam
        (ParamState.mk ["A = 5\n".data, "B = 1\n".data]
          [("A", 1, PyVal.int 5), ("B", 2, PyVal.int 1)])
        "B" (PyVal.int 2))).getD (2 - 1) [] =
      rewriteLine (["A = 5\n".data, "B = 1\n".data].getD (2 - 1) [])
        (PyVal.int 2)) :=
  ⟨by decide, by decide, by decide,
    single_mutation_frame ["A = 5\n".data, "B = 1\n".data]
      (ParamState.mk ["A = 5\n".data, "B = 1\n".data]
        [("A", 1, PyVal.int 5), ("B", 2, PyVal.int 1)])
      "B" (PyVal.int 2) 2 (PyVal.int 1)
      (by decide) (by decide) (by decide)⟩

/-- Claim C3: the domain decomposition validator succeeds if and only if both
grid dimensions are divisible by the corresponding process-grid dimension
(`NX % NPROCX == 0` and `NY % NPROCY == 0`), and otherwise fails (raising
`AssertionError`, the `DecompositionError` of the spec); concretely,
`validate(500, 174, 5, 3)` succeeds and `validate(501, 174, 5, 3)` fails. -/
theorem domain_decomp_iff (NX NY NPROCX NPROCY : ℕ)
    (hx : 0 < NPROCX) (hy : 0 < NPROCY) :
    (check_domain_decomp NX NY NPROCX NPROCY = true ↔
      NX % NPROCX = 0 ∧ NY % NPROCY = 0) ∧
    check_domain_decomp 500 174 5 3 = true ∧
    check_domain_decomp 501 174 5 3 = false := by
  refine ⟨?_, by decide, by decide⟩
  simp [check_domain_decomp]

/-- Witness for C3 at the concrete inputs of the claim. -/
theorem domain_decomp_iff_witness :
    0 < 5 ∧ 0 < 3 ∧
      ((check_domain_decomp 500 174 5 3 = true ↔
          500 % 5 = 0 ∧ 174 % 3 = 0) ∧
        check_domain_decomp 500 174 5 3 = true ∧
        check_domain_decomp 501 174 5 3 = false) :=
  ⟨by decide, by decide, domain_decomp_iff 500 174 5 3 (by decide) (by decide)⟩

/-- Claim C9: requesting an inversion with an empty stage schedule is refused
with a diagnostic (the `WARNING! Denise.fwi_stages is empty!` message telling
the user to append stages): the trace is exactly the warning, so no workflow
file, no other output file, and no solver launch. -/
theorem fwi_empty_schedule_refused (cfg : RunConfig) (h : cfg.stages = []) :
    fwiTrace cfg = [Event.warnEmptyStages] ∧
    (∀ e ∈ fwiTrace cfg, isFileWrite e = false) ∧
    Event.launch ∉ fwiTrace cfg := by
  have ht : fwiTrace cfg = [Event.warnEmptyStages] := by simp [fwiTrace, h]
  refine ⟨ht, ?_, ?_⟩ <;> simp [ht, isFileWrite]

/-- Witness for C9: a concrete configuration with an empty schedule. -/
theorem fwi_empty_schedule_refused_witness :
    (RunConfig.mk 500 174 5 3 0 1 false []).stages = [] ∧
      (fwiTrace (RunConfig.mk 500 174 5 3 0 1 false []) =
          [Event.warnEmptyStages] ∧
        (∀ e ∈ fwiTrace (RunConfig.mk 500 174 5 3 0 1 false []),
          isFileWrite e = false) ∧
        Event.launch ∉ fwiTrace (RunConfig.mk 500 174 5 3 0 1 false [])) :=
  ⟨rfl, fwi_empty_schedule_refused (RunConfig.mk 500 174 5 3 0 1 false []) rfl⟩

/-- Claim C7: workflow serialization emits the fixed header followed by
exactly one tab-separated row per stage in append order (never reordered or
deduplicated); every stage row has 29 columns whose `NORMALIZE` (22nd) and
`GAMMA_GRAV` (28th) entries are the literal `"0"` regardless of the stage's
stored values, even though `add_fwi_stage` does store its (possibly nonzero)
`normalize` argument in the stage. -/
theorem workflow_serialization (stages : List FWIStage) (s : FWIStage)
    (a1 a2 a3 a4 a5 a6 a7 a8 a9 a10 a11 a12 a13 a14 a15 a16 a17 a18 a19 a20
      a21 a22 a23 a24 a25 a26 a27 a28 : String) :
    fwi_workflow_text stages =
        workflow_header ++ String.join (stages.map write_denise_workflow) ∧
    write_denise_workflow s = colsJoin (rowColumns s) ∧
    (rowColumns s).length = 29 ∧
    (rowColumns s).getD 21 "" = "0" ∧
    (rowColumns s).getD 27 "" = "0" ∧
    (add_fwi_stage a1 a2 a3 a4 a5 a6 a7 a8 a9 a10 a11 a12 a13 a14 a15 a16
        a17 a18 a19 a20 a21 a22 a23 a24 a25 a26 a27 a28).NORMALIZE = a22 := by
  refine ⟨foldl_workflow_join stages workflow_header, ?_, rfl, rfl, rfl, rfl⟩
  simp [write_denise_workflow, colsJoin, rowColumns, String.append_assoc,
    append_tab_zero_tab]

/-- Claim C4 counterexample: with an inversion run whose decomposition check
fails (`501 % 5 ≠ 0`) and a nonempty schedule, an output file (the workflow
control file) has already been written when the check fails, contradicting
the claim that no file is written before the decomposition check. -/
theorem decomp_check_not_before_workflow_write :
    check_domain_decomp 501 174 5 3 = false ∧
    (fwiTrace (RunConfig.mk 501 174 5 3 0 1 false [stage0])).any
        isFileWrite = true ∧
    Event.checkDecomp false ∈
      fwiTrace (RunConfig.mk 501 174 5 3 0 1 false [stage0]) := by
  refine ⟨by decide, ?_, ?_⟩ <;>
    simp [fwiTrace, engineTrace, check_domain_decomp, stage0, isFileWrite]

/-- Claim C4 (amended): if the domain-decomposition check fails, the model
binaries, source/receiver files and the parameter file are not written and
the external solver is not launched, in both forward and inversion mode; in
forward mode no output file at all has been written.  However, output
directories are created before the check, and in inversion mode with a
nonempty schedule the workflow control file is written before the check (see
the counterexample). -/
theorem decomp_failure_aborts_run (cfg : RunConfig)
    (h : check_domain_decomp cfg.NX cfg.NY cfg.NPROCX cfg.NPROCY = false) :
    Event.writeModel ∉ fwiTrace cfg ∧
    Event.writeSrcRec ∉ fwiTrace cfg ∧
    Event.writeInp ∉ fwiTrace cfg ∧
    Event.launch ∉ fwiTrace cfg ∧
    (∀ e ∈ forwardTrace cfg, isFileWrite e = false) ∧
    Event.launch ∉ forwardTrace cfg := by
  have he : engineTrace cfg = [Event.mkdirs, Event.checkDecomp false] := by
    simp [engineTrace, h]
  by_cases hs : cfg.stages.length > 0
  · have ht : fwiTrace cfg =
        [Event.writeWorkflowHeader] ++ cfg.stages.map Event.writeWorkflowRow ++
          [Event.mkdirs, Event.checkDecomp false] := by
      simp [fwiTrace, hs, he]
    refine ⟨?_, ?_, ?_, ?_, ?_, ?_⟩ <;>
      simp [ht, forwardTrace, he, isFileWrite]
  · have ht : fwiTrace cfg = [Event.warnEmptyStages] := by
      simp [fwiTrace, hs]
    refine ⟨?_, ?_, ?_, ?_, ?_, ?_⟩ <;>
      simp [ht, forwardTrace, he, isFileWrite]

/-- Witness for C4 (amended) at a failing concrete configuration. -/
theorem decomp_failure_aborts_run_witness :
    check_domain_decomp 501 174 5 3 = false ∧
      (Event.writeModel ∉ fwiTrace (RunConfig.mk 501 174 5 3 0 1 false [stage0]) ∧
        Event.writeSrcRec ∉ fwiTrace (RunConfig.mk 501 174 5 3 0 1 false [stage0]) ∧
        Event.writeInp ∉ fwiTrace (RunConfig.mk 501 174 5 3 0 1 false [stage0]) ∧
        Event.launch ∉ fwiTrace (RunConfig.mk 501 174 5 3 0 1 false [stage0]) ∧
        (∀ e ∈ forwardTrace (RunConfig.mk 501 174 5 3 0 1 false [stage0]),
          isFileWrite e = false) ∧
        Event.launch ∉ forwardTrace (RunConfig.mk 501 174 5 3 0 1 false [stage0])) :=
  ⟨by decide,
    decomp_failure_aborts_run (RunConfig.mk 501 174 5 3 0 1 false [stage0])
      (by decide)⟩



/-- Claim C2: for every accuracy class in 0..4, operator half-length in 1..6,
positive grid spacing and positive maximum velocities, the stability analyzer
returns exactly the dt prescribed by the documented rounding rule
(`specRoundedDt`); in particular for grid spacing 20, max_vp 3500,
max_vs 3500/1.7, Taylor class and half-length 3 (FD_ORDER = 6) it returns
1/400 = 0.0025, which is not the raw CFL bound. -/
theorem stability_rounding_rule (acc L : ℕ) (DH vp vs : ℝ) (hacc : acc ≤ 4)
    (hL1 : 1 ≤ L) (hL6 : L ≤ 6) (hDH : 0 < DH) (hvp : 0 < vp)
    (hvs : 0 < vs) :
    check_stability acc (2 * L) DH vp vs =
        some (specRoundedDt acc L DH vp vs) ∧
    check_stability 0 6 20 3500 (3500/1.7) = some (1/400) ∧
    (1/400 : ℝ) ≠ rawCFL 0 3 20 3500 (3500/1.7) := by
  refine ⟨check_stability_eq acc L DH vp vs hacc hL1 hL6 hDH hvp hvs,
    check_stability_eval_1_400 3500 (3500/1.7) (by norm_num) (by norm_num)
      (by norm_num) (by norm_num), ?_⟩
  have hmax : max (3500:ℝ) (3500/1.7) = 3500 := max_eq_left (by norm_num)
  have hs1 := sqrt2_gt
  have hs2 := sqrt2_lt
  have hraw : rawCFL 0 3 20 3500 (3500/1.7) =
      20 / (Real.sqrt 2 * (149/120) * 3500) := by
    rw [rawCFL, specGamma_taylor3, hmax]
    norm_num
  apply ne_of_lt
  rw [hraw, lt_div_iff₀ (by positivity)]
  nlinarith

/-- Witness for C2 at the concrete inputs of the claim. -/
theorem stability_rounding_rule_witness :
    ((0:ℕ) ≤ 4 ∧ (1:ℕ) ≤ 3 ∧ (3:ℕ) ≤ 6 ∧ (0:ℝ) < 20 ∧ (0:ℝ) < 3500 ∧
      (0:ℝ) < 3500/1.7) ∧
    (check_stability 0 (2 * 3) 20 3500 (3500/1.7) =
        some (specRoundedDt 0 3 20 3500 (3500/1.7)) ∧
      check_stability 0 6 20 3500 (3500/1.7) = some (1/400) ∧
      (1/400 : ℝ) ≠ rawCFL 0 3 20 3500 (3500/1.7)) :=
  ⟨⟨by norm_num, by norm_num, by norm_num, by norm_num, by norm_num,
      by norm_num⟩,
    stability_rounding_rule 0 3 20 3500 (3500/1.7) (by norm_num) (by norm_num)
      (by norm_num) (by norm_num) (by norm_num) (by norm_num)⟩

/-- Claim C6 counterexample: the returned (rounded) maximum stable time step
is not strictly decreasing in max_vp: raising max_vp from 3500 to 3510 leaves
the returned dt at 1/400, because the rounding step is piecewise constant. -/
theorem stability_strict_monotonicity_cex :
    check_stability 0 6 20 3500 2000 = some (1/400) ∧
    check_stability 0 6 20 3510 2000 = some (1/400) ∧
    (3500:ℝ) < 3510 :=
  ⟨check_stability_eval_1_400 3500 2000 (by norm_num) (by norm_num)
      (by norm_num) (by norm_num),
    check_stability_eval_1_400 3510 2000 (by norm_num) (by norm_num)
      (by norm_num) (by norm_num),
    by norm_num⟩

/-- Claim C6 (amended): holding the accuracy class and operator half-length
fixed, the raw CFL bound is strictly decreasing in the governing maximum
velocity and strictly increasing in the grid spacing, while the returned
rounded time step is monotone in the weak sense (nondecreasing when the grid
spacing grows or the velocities shrink); strictness fails for the returned
value because of the rounding step (see the counterexample). -/
theorem stability_monotonicity (acc L : ℕ) (DH1 DH2 vp1 vp2 vs1 vs2 : ℝ)
    (hacc : acc ≤ 4) (hL1 : 1 ≤ L) (hL6 : L ≤ 6)
    (hDH1 : 0 < DH1) (hDH : DH1 ≤ DH2)
    (hvp2 : 0 < vp2) (hvp : vp2 ≤ vp1) (hvs2 : 0 < vs2) (hvs : vs2 ≤ vs1) :
    ∃ r1 r2,
      check_stability acc (2 * L) DH1 vp1 vs1 = some r1 ∧
      check_stability acc (2 * L) DH2 vp2 vs2 = some r2 ∧
      r1 ≤ r2 ∧
      (DH1 < DH2 ∨ max vp2 vs2 < max vp1 vs1 →
        rawCFL acc L DH1 vp1 vs1 < rawCFL acc L DH2 vp2 vs2) := by
  have hvp1 : 0 < vp1 := lt_of_lt_of_le hvp2 hvp
  have hvs1 : 0 < vs1 := lt_of_lt_of_le hvs2 hvs
  obtain ⟨T, row, hT, hrow, hsg, hposg⟩ := table_row acc L hacc hL1 hL6
  have hgam : (0:ℝ) < ((specGamma acc L : ℚ) : ℝ) := by
    rw [hsg]; exact_mod_cast hposg
  have hs : (0:ℝ) < Real.sqrt 2 := Real.sqrt_pos.mpr (by norm_num)
  have hm2 : (0:ℝ) < max vp2 vs2 := lt_max_iff.mpr (Or.inl hvp2)
  have hm1 : (0:ℝ) < max vp1 vs1 := lt_max_iff.mpr (Or.inl hvp1)
  have hmm : max vp2 vs2 ≤ max vp1 vs1 := max_le_max hvp hvs
  have hd2 : (0:ℝ) <
      Real.sqrt 2 * ((specGamma acc L : ℚ) : ℝ) * max vp2 vs2 := by positivity
  have hdd : Real.sqrt 2 * ((specGamma acc L : ℚ) : ℝ) * max vp2 vs2 ≤
      Real.sqrt 2 * ((specGamma acc L : ℚ) : ℝ) * max vp1 vs1 := by
    apply mul_le_mul_of_nonneg_left hmm (by positivity)
  have hraw_le : rawCFL acc L DH1 vp1 vs1 ≤ rawCFL acc L DH2 vp2 vs2 := by
    rw [rawCFL, rawCFL]
    calc DH1 / (Real.sqrt 2 * ((specGamma acc L : ℚ) : ℝ) * max vp1 vs1)
        ≤ DH1 / (Real.sqrt 2 * ((specGamma acc L : ℚ) : ℝ) * max vp2 vs2) :=
          div_le_div_of_nonneg_left hDH1.le hd2 hdd
      _ ≤ DH2 / (Real.sqrt 2 * ((specGamma acc L : ℚ) : ℝ) * max vp2 vs2) :=
          (div_le_div_iff_of_pos_right hd2).mpr hDH
  have hraw1_pos : 0 < rawCFL acc L DH1 vp1 vs1 := by
    rw [rawCFL]; positivity
  refine ⟨specRoundedDt acc L DH1 vp1 vs1, specRoundedDt acc L DH2 vp2 vs2,
    check_stability_eq acc L DH1 vp1 vs1 hacc hL1 hL6 hDH1 hvp1 hvs1,
    check_stability_eq acc L DH2 vp2 vs2 hacc hL1 hL6
      (lt_of_lt_of_le hDH1 hDH) hvp2 hvs2, ?_, ?_⟩
  · show roundNice (0.99 * rawCFL acc L DH1 vp1 vs1) ≤
      roundNice (0.99 * rawCFL acc L DH2 vp2 vs2)
    apply roundNice_mono (mul_pos (by norm_num) hraw1_pos)
    nlinarith
  · rintro (hlt | hlt)
    · rw [rawCFL, rawCFL]
      calc DH1 / (Real.sqrt 2 * ((specGamma acc L : ℚ) : ℝ) * max vp1 vs1)
          ≤ DH1 / (Real.sqrt 2 * ((specGamma acc L : ℚ) : ℝ) * max vp2 vs2) :=
            div_le_div_of_nonneg_left hDH1.le hd2 hdd
        _ < DH2 / (Real.sqrt 2 * ((specGamma acc L : ℚ) : ℝ) * max vp2 vs2) :=
            (div_lt_div_iff_of_pos_right hd2).mpr hlt
    · have hdd' : Real.sqrt 2 * ((specGamma acc L : ℚ) : ℝ) * max vp2 vs2 <
          Real.sqrt 2 * ((specGamma acc L : ℚ) : ℝ) * max vp1 vs1 := by
        apply mul_lt_mul_of_pos_left hlt (by positivity)
      rw [rawCFL, rawCFL]
      calc DH1 / (Real.sqrt 2 * ((specGamma acc L : ℚ) : ℝ) * max vp1 vs1)
          < DH1 / (Real.sqrt 2 * ((specGamma acc L : ℚ) : ℝ) * max vp2 vs2) :=
            div_lt_div_of_pos_left hDH1 hd2 hdd'
        _ ≤ DH2 / (Real.sqrt 2 * ((specGamma acc L : ℚ) : ℝ) * max vp2 vs2) :=
            (div_le_div_iff_of_pos_right hd2).mpr hDH

/-- Witness for C6 (amended) at concrete inputs. -/
theorem stability_monotonicity_witness :
    ((0:ℕ) ≤ 4 ∧ (1:ℕ) ≤ 3 ∧ (3:ℕ) ≤ 6 ∧ (0:ℝ) < 20 ∧ (20:ℝ) ≤ 25 ∧
      (0:ℝ) < 3400 ∧ (3400:ℝ) ≤ 3500 ∧ (0:ℝ) < 2000 ∧ (2000:ℝ) ≤ 2000) ∧
    (∃ r1 r2,
      check_stability 0 (2 * 3) 20 3500 2000 = some r1 ∧
      check_stability 0 (2 * 3) 25 3400 2000 = some r2 ∧
      r1 ≤ r2 ∧
      ((20:ℝ) < 25 ∨ max (3400:ℝ) 2000 < max (3500:ℝ) 2000 →
        rawCFL 0 3 20 3500 2000 < rawCFL 0 3 25 3400 2000)) :=
  ⟨⟨by norm_num, by norm_num, by norm_num, by norm_num, by norm_num,
      by norm_num, by norm_num, by norm_num, by norm_num⟩,
    stability_monotonicity 0 3 20 25 3500 3400 2000 2000 (by norm_num)
      (by norm_num) (by norm_num) (by norm_num) (by norm_num) (by norm_num)
      (by norm_num) (by norm_num) (by norm_num)⟩

/-- Claim C8: for every accuracy class in 0..4, operator half-length in 1..6,
positive grid spacing and positive minimum velocities, the dispersion
analyzer computes `fmax = min(min_vp, min_vs) / (points_per_wavelength * DH)`
with `points_per_wavelength` the fixed table entry for the class and
half-length (the source logs this value rather than returning it; the
embedding returns the computed value). -/
theorem max_frequency_formula (acc L : ℕ) (DH minvp minvs : ℝ)
    (hacc : acc ≤ 4) (hL1 : 1 ≤ L) (hL6 : L ≤ 6) (hDH : 0 < DH)
    (hvp : 0 < minvp) (hvs : 0 < minvs) :
    check_max_frequency acc (2 * L) DH minvp minvs =
      some (min minvp minvs / (((specGpw acc L : ℚ) : ℝ) * DH)) := by
  obtain ⟨r, n, hr, hn, hg⟩ := gpw_row acc L hacc hL1 hL6
  have hfd : 2 * L / 2 - 1 = L - 1 := by omega
  simp only [check_max_frequency, hr, hfd, hn]
  have hmin : (if minvp < minvs then minvp else minvs) = min minvp minvs := by
    rcases lt_or_ge minvp minvs with h | h
    · rw [if_pos h, min_eq_left h.le]
    · rw [if_neg (not_lt.mpr h), min_eq_right h]
  rw [hmin, hg]

/-- Witness for C8 at concrete inputs (Taylor class, half-length 3). -/
theorem max_frequency_formula_witness :
    ((0:ℕ) ≤ 4 ∧ (1:ℕ) ≤ 3 ∧ (3:ℕ) ≤ 6 ∧ (0:ℝ) < 20 ∧ (0:ℝ) < 3500 ∧
      (0:ℝ) < 2000) ∧
    check_max_frequency 0 (2 * 3) 20 3500 2000 =
      some (min (3500:ℝ) 2000 / (((specGpw 0 3 : ℚ) : ℝ) * 20)) :=
  ⟨⟨by norm_num, by norm_num, by norm_num, by norm_num, by norm_num,
      by norm_num⟩,
    max_frequency_formula 0 3 20 3500 2000 (by norm_num) (by norm_num)
      (by norm_num) (by norm_num) (by norm_num) (by norm_num)⟩

/-- Claim C10: for every strictly positive raw CFL time step, the normalized
mantissa of `0.99 * dt_raw` lies in `[10, 100)`, so the candidate selection
of the rounding step always succeeds (`roundDt` is `some`), and the stability
analyzer is total on positive inputs with a valid class and half-length. -/
theorem stability_rounding_never_empty (dtRaw : ℝ) (hpos : 0 < dtRaw)
    (acc L : ℕ) (DH vp vs : ℝ) (hacc : acc ≤ 4) (hL1 : 1 ≤ L) (hL6 : L ≤ 6)
    (hDH : 0 < DH) (hvp : 0 < vp) (hvs : 0 < vs) :
    (10 ≤ last2digits (0.99 * dtRaw) ∧ last2digits (0.99 * dtRaw) < 100) ∧
    (roundDt (0.99 * dtRaw)).isSome = true ∧
    (check_stability acc (2 * L) DH vp vs).isSome = true := by
  have h99 : 0 < 0.99 * dtRaw := mul_pos (by norm_num) hpos
  refine ⟨last2digits_bounds h99, ?_, ?_⟩
  · rw [roundDt_eq h99]; rfl
  · rw [check_stability_eq acc L DH vp vs hacc hL1 hL6 hDH hvp hvs]; rfl

/-- Witness for C10 at concrete inputs. -/
theorem stability_rounding_never_empty_witness :
    ((0:ℝ) < 1 ∧ (0:ℕ) ≤ 4 ∧ (1:ℕ) ≤ 3 ∧ (3:ℕ) ≤ 6 ∧ (0:ℝ) < 20 ∧
      (0:ℝ) < 3500 ∧ (0:ℝ) < 2000) ∧
    ((10 ≤ last2digits (0.99 * 1) ∧ last2digits (0.99 * 1) < 100) ∧
      (roundDt (0.99 * 1)).isSome = true ∧
      (check_stability 0 (2 * 3) 20 3500 2000).isSome = true) :=
  ⟨⟨by norm_num, by norm_num, by norm_num, by norm_num, by norm_num,
      by norm_num, by norm_num⟩,
    stability_rounding_never_empty 1 (by norm_num) 0 3 20 3500 2000
      (by norm_num) (by norm_num) (by norm_num) (by norm_num) (by norm_num)
      (by norm_num)⟩

end Denise
